import Mathlib

/-!
Shallow embedding of the incremental scan / checkpoint / dedup engine of
`src/fixed.scr.py` (functions `is_card_seen`, `mark_card_seen`,
`get_last_msg_id`, `update_last_msg_id`, `scrape_new_messages`).

Modelling choices:
* Text is `List Char`.  A message's `text or caption` is a single field,
  with `[]` standing for Python's falsy "no text".
* The SQLite tables are association lists: `seen_cards` is a list of
  `SeenEntry` (primary key `card_hash`), `last_scraped` a list of
  `(channel_id, last_msg_id)` pairs (primary key `channel_id`).
  Timestamp columns carry no behaviour and are not modelled.
* `sha256(...).hexdigest()` is an arbitrary deterministic function
  `hash : List Char → List Char`, a parameter of every definition.
* The regular expressions are embedded as an explicit backtracking
  matcher for the fixed pattern `\d{16}\D*\d{2}\D*\d{2,4}\D*\d{3,4}`,
  with Python's leftmost, greedy, non-overlapping `findall` semantics.
* Python truthiness of `last_msg_id` / `newest_msg_id_in_this_run`
  (ints, where `0` and `None` are falsy) and of the optional string
  filters (where `""` and `None` are falsy) is modelled explicitly.
* The message iterator of `user.search_messages` is a `List FetchItem`;
  the item `fetchErr` marks the point where the transport raises, which
  the `except` clause around the loop turns into an early loop exit.
-/

namespace Scr

abbrev Str := List Char

/-- Python `str.lower()` (per character). -/
def lowerStr (s : Str) : Str := s.map Char.toLower

/-- Python substring containment `pat in s`. -/
def isSubstringOf (pat s : Str) : Bool :=
  s.tails.any (fun t => pat.isPrefixOf t)

/-- Python truthiness of an optional int (`None` and `0` are falsy). -/
def truthyNat : Option Nat → Bool
  | none => false
  | some n => n != 0

/-- Python truthiness of an optional string (`None` and `""` are falsy). -/
def truthyStr : Option Str → Bool
  | none => false
  | some s => !s.isEmpty

/-- Python `s[-2:]`. -/
def lastTwo (s : Str) : Str := s.drop (s.length - 2)

/-! ### Regex engine for the fixed patterns

One element of a regex: a character class with a repetition range
(`hi = none` means unbounded), matched greedily. -/

structure REElem where
  pred : Char → Bool
  lo : Nat
  hi : Option Nat

/-- Greedy matching of one quantified class: try to consume `k` characters,
backtracking downwards to `lo`; `rest` matches the remainder. -/
def tryCounts (p : Char → Bool) (lo : Nat) (rest : Str → Option Nat) :
    Nat → Str → Option Nat
  | k, s =>
    if k < lo then none
    else if (s.take k).all p && decide (k ≤ s.length) then
      match rest (s.drop k) with
      | some m => some (k + m)
      | none => match k with
        | 0 => none
        | k' + 1 => tryCounts p lo rest k' s
    else match k with
      | 0 => none
      | k' + 1 => tryCounts p lo rest k' s

/-- Match a sequence of elements at the start of `s`; returns the number of
characters consumed by the (leftmost-greedy) match, like Python's
`re.match` with this pattern. -/
def matchElems : List REElem → Str → Option Nat
  | [], _ => some 0
  | e :: es, s =>
    tryCounts e.pred e.lo (fun t => matchElems es t)
      (min (e.hi.getD s.length) s.length) s

/-- Python `re.findall`: scan left to right, take the leftmost match, continue
after it (matches here are always nonempty, the guard keeps recursion sound). -/
def findAllRE (p : List REElem) (s : Str) : List Str :=
  match s with
  | [] => []
  | c :: t =>
    match matchElems p (c :: t) with
    | some n =>
      if h : 0 < n ∧ n ≤ (c :: t).length then
        (c :: t).take n :: findAllRE p ((c :: t).drop n)
      else
        findAllRE p t
    | none => findAllRE p t
termination_by s.length
decreasing_by
  all_goals simp only [List.length_drop, List.length_cons] at *
  all_goals omega

/-- The coarse pattern `\d{16}\D*\d{2}\D*\d{2,4}\D*\d{3,4}` of line 101. -/
def coarsePattern : List REElem :=
  [⟨Char.isDigit, 16, some 16⟩, ⟨fun c => !c.isDigit, 0, none⟩,
   ⟨Char.isDigit, 2, some 2⟩, ⟨fun c => !c.isDigit, 0, none⟩,
   ⟨Char.isDigit, 2, some 4⟩, ⟨fun c => !c.isDigit, 0, none⟩,
   ⟨Char.isDigit, 3, some 4⟩]

theorem length_dropWhile_le (p : Char → Bool) (l : List Char) :
    (l.dropWhile p).length ≤ l.length := by
  induction l with
  | nil => simp [List.dropWhile]
  | cons a t ih =>
    simp only [List.dropWhile]
    cases p a
    · simp
    · simp
      omega

/-- `re.findall(r'\d+', s)`: the maximal digit runs of `s`, in order. -/
def digitRuns (s : Str) : List Str :=
  match s with
  | [] => []
  | c :: cs =>
    if c.isDigit then
      (c :: cs.takeWhile Char.isDigit) :: digitRuns (cs.dropWhile Char.isDigit)
    else
      digitRuns cs
termination_by s.length
decreasing_by
  · simp only [List.length_cons]
    exact Nat.lt_succ_of_le (length_dropWhile_le _ _)
  · simp

/-! ### Data model -/

/-- A candidate record: the four digit fields, the year already truncated. -/
structure Card where
  card_number : Str
  mo : Str
  year : Str
  cvv : Str
deriving DecidableEq, Repr

/-- Lines 143-146: extract the maximal digit runs of a coarse match; exactly
four runs give a candidate, with the year reduced to its last two chars. -/
def extractFromMatch (m : Str) : Option Card :=
  match digitRuns m with
  | [a, b, c, d] => some ⟨a, b, lastTwo c, d⟩
  | _ => none

/-- Line 155: `f"{card_number}|{mo}|{year}|{cvv}"`. -/
def formatCard (c : Card) : Str :=
  c.card_number ++ '|' :: c.mo ++ '|' :: c.year ++ '|' :: c.cvv

/-- A row of the `seen_cards` table (`card_hash` is the primary key;
the `first_seen` timestamp carries no behaviour and is dropped). -/
structure SeenEntry where
  card_hash : Str
  source : Str
deriving DecidableEq, Repr

/-- The persistent database: tables `seen_cards` and `last_scraped`
(the latter's `last_scrape` timestamp carries no behaviour). -/
structure DB where
  seen_cards : List SeenEntry
  last_scraped : List (Int × Nat)
deriving DecidableEq

/-- `SELECT 1 FROM seen_cards WHERE card_hash = ?` has a row. -/
def seenHash (tbl : List SeenEntry) (h : Str) : Bool :=
  tbl.any (fun e => e.card_hash == h)

/-- `is_card_seen` (lines 56-64): hash the card number, query by hash only
(the `source` argument is ignored by the query), return both. -/
def is_card_seen (hash : Str → Str) (tbl : List SeenEntry)
    (card_number source : Str) : Bool × Str :=
  (seenHash tbl (hash card_number), hash card_number)

inductive InsertOutcome
  | ok
  | alreadyExists
deriving DecidableEq, Repr

/-- The `INSERT INTO seen_cards` of line 71: the primary key on `card_hash`
either admits the new row or raises `IntegrityError` (`alreadyExists`). -/
def insert_seen (tbl : List SeenEntry) (h src : Str) :
    InsertOutcome × List SeenEntry :=
  if seenHash tbl h then (.alreadyExists, tbl)
  else (.ok, tbl ++ [⟨h, src⟩])

/-- `mark_card_seen` (lines 66-77): insert, swallowing `IntegrityError`. -/
def mark_card_seen (tbl : List SeenEntry) (card_hash source : Str) :
    List SeenEntry :=
  (insert_seen tbl card_hash source).2

/-- `get_last_msg_id` (lines 79-86). -/
def get_last_msg_id (tbl : List (Int × Nat)) (channel_id : Int) : Option Nat :=
  (tbl.find? (fun r => r.1 == channel_id)).map (·.2)

/-- `update_last_msg_id` (lines 88-95): `INSERT OR REPLACE` keyed on
`channel_id`. -/
def update_last_msg_id (tbl : List (Int × Nat)) (channel_id : Int)
    (last_msg_id : Nat) : List (Int × Nat) :=
  (channel_id, last_msg_id) :: tbl.filter (fun r => !(r.1 == channel_id))

/-! ### The scan loop -/

/-- A fetched message: its position and its `text or caption`
(`[]` when the message carries no text). -/
structure Msg where
  id : Nat
  text : Str
deriving DecidableEq, Repr

/-- One step of the `search_messages` iterator: either a message is yielded
or the transport raises (caught by the `except` of line 163). -/
inductive FetchItem
  | msg (m : Msg)
  | fetchErr
deriving DecidableEq, Repr

/-- The mutable state of the message loop (lines 99-161):
`messages_found` (as `Card`s), `count`, `newest_msg_id_in_this_run`,
and the `seen_cards` table which the loop grows. -/
structure LoopSt where
  found : List Card
  count : Nat
  newest : Option Nat
  seen : List SeenEntry
deriving DecidableEq

/-- Lines 147-159: one candidate card through the BIN filter, the dedup
check, and collection. -/
def processCard (hash : Str → Str) (title : Str) (start_number : Option Str)
    (st : LoopSt) (card : Card) : LoopSt :=
  if truthyStr start_number &&
      !(((start_number.getD []).take 6).isPrefixOf card.card_number) then
    st
  else
    let sc := is_card_seen hash st.seen card.card_number title
    if !sc.1 then
      { st with
        found := st.found ++ [card],
        seen := mark_card_seen st.seen sc.2 title,
        count := st.count + 1 }
    else
      st

/-- Lines 142-146 around one coarse match: runs are extracted and a
non-four run count is dropped silently. -/
def processMatched (hash : Str → Str) (title : Str)
    (start_number : Option Str) (st : LoopSt) (matched : Str) : LoopSt :=
  match extractFromMatch matched with
  | none => st
  | some card => processCard hash title start_number st card

/-- The body of the loop for one yielded message, after the
`count >= limit` break check (lines 124-161). -/
def stepMsg (hash : Str → Str) (title : Str) (last : Option Nat)
    (start_number bank_name : Option Str) (st : LoopSt) (m : Msg) : LoopSt :=
  let st1 := { st with
    newest := some (match st.newest with
      | none => m.id
      | some n => max n m.id) }
  if (match last with
      | some l => decide (l ≠ 0) && decide (m.id ≤ l)
      | none => false) then
    st1
  else if m.text.isEmpty then
    st1
  else if truthyStr bank_name &&
      !(isSubstringOf (lowerStr (bank_name.getD [])) (lowerStr m.text)) then
    st1
  else
    (findAllRE coarsePattern m.text).foldl
      (processMatched hash title start_number) st1

/-- The `async for` loop of lines 120-161: stop on a raised fetch error or
once `count >= limit`, otherwise run the body and continue. -/
def scrapeLoop (hash : Str → Str) (title : Str) (limit : Int)
    (last : Option Nat) (start_number bank_name : Option Str) :
    List FetchItem → LoopSt → LoopSt
  | [], st => st
  | .fetchErr :: _, st => st
  | .msg m :: rest, st =>
    if limit ≤ (st.count : Int) then st
    else
      scrapeLoop hash title limit last start_number bank_name rest
        (stepMsg hash title last start_number bank_name st m)

/-- The positions the loop actually observes (the messages that reach the
`newest_msg_id_in_this_run` update of line 125), in order. -/
def obsIds (limit : Int) (step : LoopSt → Msg → LoopSt) :
    List FetchItem → LoopSt → List Nat
  | [], _ => []
  | .fetchErr :: _, _ => []
  | .msg m :: rest, st =>
    if limit ≤ (st.count : Int) then []
    else m.id :: obsIds limit step rest (step st m)

/-- `newest_msg_id_in_this_run` as a function of the observed positions:
start from the loaded checkpoint and fold the max update of line 125. -/
def newestUpd (start : Option Nat) (ids : List Nat) : Option Nat :=
  ids.foldl (fun acc i => some (match acc with
    | none => i
    | some n => max n i)) start

/-- The `search_messages(..., limit=limit*5)` cap on the iterator
(a non-positive limit means no cap is applied by the client). -/
def fetchCap (limit : Int) (stream : List FetchItem) : List FetchItem :=
  if 0 < limit * 5 then stream.take (limit * 5).toNat else stream

/-- The label returned on line 110 when `get_chat` fails. -/
def invalidChannel : Str := "Invalid Channel".toList

/-- The value of `scrape_new_messages` together with the database it
leaves behind. -/
structure ScrapeResult where
  cards : List Card
  formatted : List Str
  source_name : Str
  last_pos : Option Nat
  db : DB
deriving DecidableEq

/-- `scrape_new_messages` (lines 97-172).  `resolve` is the outcome of
`user.get_chat` (`none` when it raises), `stream` the underlying message
iterator, `hash` the digest function. -/
def scrape_new_messages (hash : Str → Str) (db : DB)
    (resolve : Option (Int × Str)) (stream : List FetchItem) (limit : Int)
    (start_number bank_name : Option Str) : ScrapeResult :=
  match resolve with
  | none => ⟨[], [], invalidChannel, some 0, db⟩
  | some (channel_id, channel_title) =>
    let last := get_last_msg_id db.last_scraped channel_id
    let st0 : LoopSt := ⟨[], 0, last, db.seen_cards⟩
    let st := scrapeLoop hash channel_title limit last start_number bank_name
      (fetchCap limit stream) st0
    let lastTbl :=
      if truthyNat st.newest && decide (st.newest ≠ last) then
        update_last_msg_id db.last_scraped channel_id (st.newest.getD 0)
      else db.last_scraped
    ⟨st.found, st.found.map formatCard, channel_title,
     if truthyNat st.newest then st.newest else last,
     ⟨st.seen, lastTbl⟩⟩

/-! ### Spec-side predicates -/

/-- Every character is a (decimal) digit. -/
def allDigits (s : Str) : Prop := ∀ c ∈ s, c.isDigit = true

/-- No character is a digit (a separator block). -/
def noDigits (s : Str) : Prop := ∀ c ∈ s, c.isDigit = false

/-- The spec's coarse positional grammar: a run of exactly 16 digits, then
any number of non-digit separators, then 2 digits, separators, 2-4 digits,
separators, 3-4 digits. -/
def coarseShape (m : Str) : Prop :=
  ∃ a s1 b s2 c s3 d : Str,
    m = a ++ s1 ++ b ++ s2 ++ c ++ s3 ++ d ∧
    a.length = 16 ∧ allDigits a ∧ noDigits s1 ∧
    b.length = 2 ∧ allDigits b ∧ noDigits s2 ∧
    2 ≤ c.length ∧ c.length ≤ 4 ∧ allDigits c ∧ noDigits s3 ∧
    3 ≤ d.length ∧ d.length ≤ 4 ∧ allDigits d

/-- What a sequence of regex elements being matched in full means:
the string splits into consecutive segments, one per element, each within
the element's repetition range and inside its character class. -/
def segsMatch : List REElem → Str → Prop
  | [], s => s = []
  | e :: es, s =>
    ∃ seg rest : Str, s = seg ++ rest ∧ e.lo ≤ seg.length ∧
      (∀ n, e.hi = some n → seg.length ≤ n) ∧
      (∀ c ∈ seg, e.pred c = true) ∧ segsMatch es rest

/-! ### Generic preservation lemmas for the loop -/

theorem foldl_preserve {α β : Type} (f : β → α → β) (Q : β → Prop)
    (h : ∀ b a, Q b → Q (f b a)) : ∀ (l : List α) (b : β), Q b → Q (l.foldl f b) := by
  intro l
  induction l with
  | nil => intro b hb; exact hb
  | cons a t ih => intro b hb; exact ih _ (h b a hb)

theorem processMatched_preserve (hash : Str → Str) (title : Str)
    (sn : Option Str) (Q : LoopSt → Prop)
    (h : ∀ st c, Q st → Q (processCard hash title sn st c)) :
    ∀ st m, Q st → Q (processMatched hash title sn st m) := by
  intro st m hq
  unfold processMatched
  cases extractFromMatch m with
  | none => exact hq
  | some card => exact h st card hq

theorem stepMsg_preserve (hash : Str → Str) (title : Str) (last : Option Nat)
    (sn bn : Option Str) (Q : LoopSt → Prop)
    (hnew : ∀ st v, Q st → Q { st with newest := v })
    (h : ∀ st c, Q st → Q (processCard hash title sn st c)) :
    ∀ st m, Q st → Q (stepMsg hash title last sn bn st m) := by
  intro st m hq
  unfold stepMsg
  dsimp only
  have h1 : Q { st with newest := some (match st.newest with
      | none => m.id | some n => max n m.id) } := hnew st _ hq
  split
  · exact h1
  · split
    · exact h1
    · split
      · exact h1
      · exact foldl_preserve _ Q
          (fun b a hb => processMatched_preserve hash title sn Q h b a hb) _ _ h1

theorem scrapeLoop_preserve (hash : Str → Str) (title : Str) (limit : Int)
    (last : Option Nat) (sn bn : Option Str) (Q : LoopSt → Prop)
    (h : ∀ st m, Q st → Q (stepMsg hash title last sn bn st m)) :
    ∀ (items : List FetchItem) (st : LoopSt), Q st →
      Q (scrapeLoop hash title limit last sn bn items st) := by
  intro items
  induction items with
  | nil => intro st hq; exact hq
  | cons it rest ih =>
    intro st hq
    cases it with
    | fetchErr => exact hq
    | msg m =>
      simp only [scrapeLoop]
      split
      · exact hq
      · exact ih _ (h st m hq)

theorem fetchCap_subset (limit : Int) (stream : List FetchItem) :
    ∀ it, it ∈ fetchCap limit stream → it ∈ stream := by
  intro it hit
  unfold fetchCap at hit
  split at hit
  · exact List.take_subset _ _ hit
  · exact hit

/-- If every message in the stream is at or below the loaded checkpoint `L`
(and `L` is truthy), the loop is a no-op on its state. -/
theorem scrapeLoop_all_old (hash : Str → Str) (title : Str) (limit : Int)
    (sn bn : Option Str) (L : Nat) (hL0 : L ≠ 0) :
    ∀ (items : List FetchItem) (st : LoopSt), st.newest = some L →
      (∀ m : Msg, FetchItem.msg m ∈ items → m.id ≤ L) →
      scrapeLoop hash title limit (some L) sn bn items st = st := by
  intro items
  induction items with
  | nil => intro st _ _; rfl
  | cons it rest ih =>
    intro st h1 h2
    cases it with
    | fetchErr => rfl
    | msg m =>
      simp only [scrapeLoop]
      split
      · rfl
      · have hid : m.id ≤ L := h2 m (by simp)
        have hstep : stepMsg hash title (some L) sn bn st m = st := by
          unfold stepMsg
          dsimp only
          rw [h1]
          have hmax : max L m.id = L := Nat.max_eq_left hid
          rw [if_pos (by simp [hL0, hid])]
          dsimp only
          rw [hmax]
          cases st with
          | mk f c n s => simp at h1; rw [h1]
        rw [hstep]
        exact ih st h1 (fun m' hm' => h2 m' (by simp [hm']))

/-- C7: re-running a scan when the source holds no message newer than the
stored checkpoint `L` yields zero records, returns position `L`, and leaves
the whole database (both tables) unchanged. -/
theorem claim_c7_scan_idempotence (hash : Str → Str) (db : DB) (channel_id : Int)
    (title : Str) (stream : List FetchItem) (limit : Int)
    (sn bn : Option Str) (L : Nat)
    (hL : get_last_msg_id db.last_scraped channel_id = some L) (hL0 : 0 < L)
    (hall : ∀ m : Msg, FetchItem.msg m ∈ stream → m.id ≤ L) :
    scrape_new_messages hash db (some (channel_id, title)) stream limit sn bn =
      ⟨[], [], title, some L, db⟩ := by
  unfold scrape_new_messages
  dsimp only
  rw [hL]
  rw [scrapeLoop_all_old hash title limit sn bn L (by omega) _ _ rfl
    (fun m hm => hall m (fetchCap_subset limit stream _ hm))]
  have ht : truthyNat (some L) = true := by
    simp [truthyNat]
    omega
  simp [ht]

/-- C10: with a non-positive limit the loop exits before its first message. -/
theorem scrapeLoop_nonpos_limit (hash : Str → Str) (title : Str) (limit : Int)
    (last : Option Nat) (sn bn : Option Str) (hlim : limit ≤ 0)
    (items : List FetchItem) (found : List Card) (newest : Option Nat)
    (seen : List SeenEntry) :
    scrapeLoop hash title limit last sn bn items ⟨found, 0, newest, seen⟩ =
      ⟨found, 0, newest, seen⟩ := by
  cases items with
  | nil => rfl
  | cons it rest =>
    cases it with
    | fetchErr => rfl
    | msg m =>
      simp only [scrapeLoop]
      rw [if_pos (by exact_mod_cast hlim)]

/-- Witness for C7 at a concrete input. -/
theorem claim_c7_scan_idempotence_witness :
    scrape_new_messages (fun s => s) ⟨[⟨['1'], ['A']⟩], [(7, 5)]⟩
        (some (7, ['C'])) [.msg ⟨5, ['x']⟩] 10 none none =
      ⟨[], [], ['C'], some 5, ⟨[⟨['1'], ['A']⟩], [(7, 5)]⟩⟩ :=
  claim_c7_scan_idempotence (fun s => s) ⟨[⟨['1'], ['A']⟩], [(7, 5)]⟩ 7 ['C']
    [.msg ⟨5, ['x']⟩] 10 none none 5 (by decide) (by decide)
    (by
      intro m hm
      simp only [List.mem_singleton] at hm
      injection hm with h
      subst h
      decide)

/-- C8: inserting a fresh hash succeeds and makes it visible; a second insert
of the same hash reports `alreadyExists`, changes nothing, and the table holds
exactly one entry for that hash; `mark_card_seen` surfaces no error; and any
hash ever inserted is subsequently reported as seen. -/
theorem claim_c8_insert_idempotent (tbl : List SeenEntry) (h src src2 : Str)
    (hfresh : seenHash tbl h = false) :
    (insert_seen tbl h src).1 = .ok ∧
    seenHash (insert_seen tbl h src).2 h = true ∧
    (insert_seen (insert_seen tbl h src).2 h src2).1 = .alreadyExists ∧
    (insert_seen (insert_seen tbl h src).2 h src2).2 = (insert_seen tbl h src).2 ∧
    ((insert_seen tbl h src).2.filter
      (fun e => e.card_hash == h)).length = 1 ∧
    mark_card_seen (insert_seen tbl h src).2 h src2 = (insert_seen tbl h src).2 ∧
    (∀ (tb : List SeenEntry) (hh s : Str),
      seenHash (mark_card_seen tb hh s) hh = true) := by
  have hins : insert_seen tbl h src = (.ok, tbl ++ [⟨h, src⟩]) := by
    unfold insert_seen
    rw [hfresh]
    simp
  have hseen2 : seenHash (tbl ++ [⟨h, src⟩]) h = true := by
    unfold seenHash
    simp
  have hfilter : (tbl.filter (fun e => e.card_hash == h)) = [] := by
    rw [List.filter_eq_nil_iff]
    intro e he
    unfold seenHash at hfresh
    have := List.any_eq_false.mp hfresh e he
    simpa using this
  refine ⟨by rw [hins], by rw [hins]; exact hseen2, ?_, ?_, ?_, ?_, ?_⟩
  · rw [hins]
    unfold insert_seen
    rw [hseen2]
    simp
  · rw [hins]
    unfold insert_seen
    rw [hseen2]
    simp
  · rw [hins]
    simp [List.filter_append, hfilter]
  · rw [hins]
    unfold mark_card_seen insert_seen
    rw [hseen2]
    simp
  · intro tb hh s
    unfold mark_card_seen insert_seen seenHash
    split
    · next heq => simpa [seenHash] using heq
    · simp

/-- Witness for C8 at a concrete input. -/
theorem claim_c8_insert_idempotent_witness :
    (insert_seen [] ['h'] ['A']).1 = .ok ∧
    seenHash (insert_seen [] ['h'] ['A']).2 ['h'] = true ∧
    (insert_seen (insert_seen [] ['h'] ['A']).2 ['h'] ['B']).1 = .alreadyExists ∧
    (insert_seen (insert_seen [] ['h'] ['A']).2 ['h'] ['B']).2 =
      (insert_seen [] ['h'] ['A']).2 ∧
    ((insert_seen [] ['h'] ['A']).2.filter
      (fun e => e.card_hash == ['h'])).length = 1 ∧
    mark_card_seen (insert_seen [] ['h'] ['A']).2 ['h'] ['B'] =
      (insert_seen [] ['h'] ['A']).2 ∧
    (∀ (tb : List SeenEntry) (hh s : Str),
      seenHash (mark_card_seen tb hh s) hh = true) :=
  claim_c8_insert_idempotent [] ['h'] ['A'] ['B'] (by decide)

/-! ### Claim theorems (error handling and edge cases) -/

/-- C9: if the source cannot be resolved the scan aborts at once: no records,
the `"Invalid Channel"` label and position `0` are returned, and both the
`seen_cards` and `last_scraped` tables are left exactly as they were. -/
theorem claim_c9_source_resolution_failure (hash : Str → Str) (db : DB)
    (stream : List FetchItem) (limit : Int) (sn bn : Option Str) :
    scrape_new_messages hash db none stream limit sn bn =
      ⟨[], [], invalidChannel, some 0, db⟩ := rfl

/-- C10: a scan with a requested limit `≤ 0` on a resolvable source exits the
message loop before processing any message: it returns no records, the returned
position equals the prior checkpoint, and the database is unchanged. -/
theorem claim_c10_zero_limit (hash : Str → Str) (db : DB) (channel_id : Int)
    (title : Str) (stream : List FetchItem) (limit : Int) (sn bn : Option Str)
    (hlim : limit ≤ 0) :
    scrape_new_messages hash db (some (channel_id, title)) stream limit sn bn =
      ⟨[], [], title, get_last_msg_id db.last_scraped channel_id, db⟩ := by
  unfold scrape_new_messages
  dsimp only
  rw [scrapeLoop_nonpos_limit hash title limit _ sn bn hlim]
  cases hl : get_last_msg_id db.last_scraped channel_id with
  | none => simp [truthyNat]
  | some l =>
    cases l with
    | zero => simp [truthyNat]
    | succ k => simp [truthyNat]

/-- Witness for C10 at a concrete input. -/
theorem claim_c10_zero_limit_witness :
    scrape_new_messages (fun s => s) ⟨[], [(7, 3)]⟩ (some (7, ['C']))
        [.msg ⟨9, ['1']⟩] 0 none none =
      ⟨[], [], ['C'], some 3, ⟨[], [(7, 3)]⟩⟩ :=
  claim_c10_zero_limit (fun s => s) ⟨[], [(7, 3)]⟩ 7 ['C']
    [.msg ⟨9, ['1']⟩] 0 none none (by decide)

/-! ### The dedup invariant of the scan loop -/

theorem seenHash_append (t1 t2 : List SeenEntry) (h : Str) :
    seenHash (t1 ++ t2) h = (seenHash t1 h || seenHash t2 h) := by
  unfold seenHash
  exact List.any_append

/-- The invariant carried by the loop state relative to the `seen_cards`
table `tbl0` loaded at scan start: every collected card was absent from
`tbl0`, collected hashes are pairwise distinct, every collected hash is
already registered in the current table, and the table only grows. -/
def ScanInv (hash : Str → Str) (tbl0 : List SeenEntry) (st : LoopSt) : Prop :=
  (∀ c ∈ st.found, seenHash tbl0 (hash c.card_number) = false) ∧
  (st.found.map fun c => hash c.card_number).Nodup ∧
  (∀ c ∈ st.found, seenHash st.seen (hash c.card_number) = true) ∧
  (∀ h, seenHash tbl0 h = true → seenHash st.seen h = true)

/-- `processCard` either leaves the state alone, or appends a card whose hash
was absent from the current table (registering it), with the BIN filter
passed whenever one is active. -/
theorem processCard_cases (hash : Str → Str) (title : Str) (sn : Option Str)
    (st : LoopSt) (c : Card) :
    processCard hash title sn st c = st ∨
    (seenHash st.seen (hash c.card_number) = false ∧
     (truthyStr sn = true →
       (((sn.getD []).take 6).isPrefixOf c.card_number) = true) ∧
     processCard hash title sn st c =
       ⟨st.found ++ [c], st.count + 1, st.newest,
        st.seen ++ [⟨hash c.card_number, title⟩]⟩) := by
  unfold processCard
  dsimp only
  split
  · exact Or.inl rfl
  · next hbin =>
    rw [Bool.and_eq_true, Bool.not_eq_true'] at hbin
    by_cases hseen : seenHash st.seen (hash c.card_number) = true
    · left
      unfold is_card_seen
      rw [hseen]
      rfl
    · right
      rw [Bool.not_eq_true] at hseen
      refine ⟨hseen, ?_, ?_⟩
      · intro htr
        by_contra hpre
        rw [Bool.not_eq_true] at hpre
        exact hbin ⟨htr, hpre⟩
      · unfold is_card_seen
        rw [hseen]
        unfold mark_card_seen insert_seen
        rw [hseen]
        rfl

theorem processCard_inv (hash : Str → Str) (title : Str) (sn : Option Str)
    (tbl0 : List SeenEntry) :
    ∀ st c, ScanInv hash tbl0 st → ScanInv hash tbl0 (processCard hash title sn st c) := by
  intro st c hinv
  rcases processCard_cases hash title sn st c with heq | ⟨hfresh, _, heq⟩
  · rw [heq]; exact hinv
  · rw [heq]
    obtain ⟨h1, h2, h3, h4⟩ := hinv
    have hnotin0 : seenHash tbl0 (hash c.card_number) = false := by
      by_contra hc
      rw [Bool.not_eq_false] at hc
      rw [h4 _ hc] at hfresh
      cases hfresh
    refine ⟨?_, ?_, ?_, ?_⟩
    · intro c' hc'
      rw [List.mem_append] at hc'
      rcases hc' with hc' | hc'
      · exact h1 c' hc'
      · rw [List.mem_singleton] at hc'
        subst hc'
        exact hnotin0
    · simp only [List.map_append, List.map_cons, List.map_nil]
      refine List.Nodup.append h2 (List.nodup_singleton _) ?_
      intro a ha hb
      rw [List.mem_singleton] at hb
      subst hb
      rw [List.mem_map] at ha
      obtain ⟨c', hc', hh⟩ := ha
      have := h3 c' hc'
      rw [hh] at this
      rw [this] at hfresh
      cases hfresh
    · intro c' hc'
      rw [List.mem_append] at hc'
      rcases hc' with hc' | hc'
      · rw [seenHash_append, h3 c' hc']
        rfl
      · rw [List.mem_singleton] at hc'
        subst hc'
        rw [seenHash_append]
        simp [seenHash]
    · intro h hh
      rw [seenHash_append, h4 _ hh]
      rfl

theorem scrapeLoop_inv (hash : Str → Str) (title : Str) (limit : Int)
    (last : Option Nat) (sn bn : Option Str) (tbl0 : List SeenEntry)
    (items : List FetchItem) (st : LoopSt) (hinv : ScanInv hash tbl0 st) :
    ScanInv hash tbl0 (scrapeLoop hash title limit last sn bn items st) := by
  refine scrapeLoop_preserve hash title limit last sn bn _ ?_ items st hinv
  intro st' m h'
  refine stepMsg_preserve hash title last sn bn _ ?_ ?_ st' m h'
  · intro st'' v h''
    exact h''
  · exact processCard_inv hash title sn tbl0

/-- The dedup behaviour of a whole scan: over any database and any scan
parameters, the emitted cards were absent from the initial `seen_cards`
table, their hashes are pairwise distinct, they are all registered in the
resulting table, and the table only grows. -/
theorem scrape_seen_spec (hash : Str → Str) (db : DB)
    (resolve : Option (Int × Str)) (stream : List FetchItem) (limit : Int)
    (sn bn : Option Str) :
    (∀ c ∈ (scrape_new_messages hash db resolve stream limit sn bn).cards,
      seenHash db.seen_cards (hash c.card_number) = false) ∧
    ((scrape_new_messages hash db resolve stream limit sn bn).cards.map
      fun c => hash c.card_number).Nodup ∧
    (∀ c ∈ (scrape_new_messages hash db resolve stream limit sn bn).cards,
      seenHash
        (scrape_new_messages hash db resolve stream limit sn bn).db.seen_cards
        (hash c.card_number) = true) ∧
    (∀ h, seenHash db.seen_cards h = true →
      seenHash
        (scrape_new_messages hash db resolve stream limit sn bn).db.seen_cards
        h = true) := by
  cases resolve with
  | none =>
    refine ⟨?_, ?_, ?_, ?_⟩ <;>
      simp [scrape_new_messages]
  | some p =>
    obtain ⟨channel_id, title⟩ := p
    have hinv0 : ScanInv hash db.seen_cards
        ⟨[], 0, get_last_msg_id db.last_scraped channel_id, db.seen_cards⟩ :=
      ⟨fun c hc => absurd hc (List.not_mem_nil c), List.nodup_nil,
       fun c hc => absurd hc (List.not_mem_nil c), fun _ hh => hh⟩
    have hinv := scrapeLoop_inv hash title limit
      (get_last_msg_id db.last_scraped channel_id) sn bn db.seen_cards
      (fetchCap limit stream) _ hinv0
    obtain ⟨h1, h2, h3, h4⟩ := hinv
    unfold scrape_new_messages
    dsimp only
    exact ⟨h1, h2, h3, h4⟩

/-- C1: at-most-once emission.  For any scan, every emitted card's hash was
absent from the `seen_cards` table when it was checked (first conjunct), is
registered in the store the scan leaves behind (second conjunct), and across
that scan followed by any later scan against the resulting store — same or
different source, any parameters — no primary-identifier hash is emitted
twice (third conjunct: all emitted hashes of both scans are pairwise
distinct). -/
theorem claim_c1_at_most_once (hash : Str → Str) (db : DB)
    (res1 res2 : Option (Int × Str)) (s1 s2 : List FetchItem)
    (l1 l2 : Int) (sn1 sn2 bn1 bn2 : Option Str) :
    (∀ c ∈ (scrape_new_messages hash db res1 s1 l1 sn1 bn1).cards,
      seenHash db.seen_cards (hash c.card_number) = false) ∧
    (∀ c ∈ (scrape_new_messages hash db res1 s1 l1 sn1 bn1).cards,
      seenHash (scrape_new_messages hash db res1 s1 l1 sn1 bn1).db.seen_cards
        (hash c.card_number) = true) ∧
    (((scrape_new_messages hash db res1 s1 l1 sn1 bn1).cards ++
      (scrape_new_messages hash
        (scrape_new_messages hash db res1 s1 l1 sn1 bn1).db
        res2 s2 l2 sn2 bn2).cards).map fun c => hash c.card_number).Nodup := by
  obtain ⟨a1, a2, a3, _⟩ := scrape_seen_spec hash db res1 s1 l1 sn1 bn1
  obtain ⟨b1, b2, _, _⟩ := scrape_seen_spec hash
    (scrape_new_messages hash db res1 s1 l1 sn1 bn1).db res2 s2 l2 sn2 bn2
  refine ⟨a1, a3, ?_⟩
  rw [List.map_append]
  refine a2.append b2 ?_
  intro x hx hx2
  rw [List.mem_map] at hx hx2
  obtain ⟨c1, hc1, rfl⟩ := hx
  obtain ⟨c2, hc2, he⟩ := hx2
  have t1 := a3 c1 hc1
  have t2 := b1 c2 hc2
  rw [he, t1] at t2
  cases t2

/-- C3: dedup identity is the digest of the unnormalized primary identifier
alone.  The store query ignores the source label entirely (first conjunct);
any record whose primary identifier already has its hash in the store is not
emitted, whatever its auxiliary fields (second conjunct); and across two
back-to-back scans — under any two resolved sources — no card of the second
scan shares a primary identifier with a card of the first (third conjunct). -/
theorem claim_c3_source_independent_dedup (hash : Str → Str) (db : DB)
    (cnum : Str) (res1 res2 : Option (Int × Str)) (s1 s2 : List FetchItem)
    (l1 l2 : Int) (sn1 sn2 bn1 bn2 : Option Str)
    (hseen : seenHash db.seen_cards (hash cnum) = true) :
    (∀ (tbl : List SeenEntry) (cn src src' : Str),
      is_card_seen hash tbl cn src = is_card_seen hash tbl cn src') ∧
    (∀ card ∈ (scrape_new_messages hash db res2 s2 l2 sn2 bn2).cards,
      card.card_number ≠ cnum) ∧
    (∀ c1 ∈ (scrape_new_messages hash db res1 s1 l1 sn1 bn1).cards,
      ∀ c2 ∈ (scrape_new_messages hash
          (scrape_new_messages hash db res1 s1 l1 sn1 bn1).db
          res2 s2 l2 sn2 bn2).cards,
        c2.card_number ≠ c1.card_number) := by
  obtain ⟨a1, _, a3, _⟩ := scrape_seen_spec hash db res1 s1 l1 sn1 bn1
  obtain ⟨b1, _, _, _⟩ := scrape_seen_spec hash
    (scrape_new_messages hash db res1 s1 l1 sn1 bn1).db res2 s2 l2 sn2 bn2
  obtain ⟨d1, _, _, _⟩ := scrape_seen_spec hash db res2 s2 l2 sn2 bn2
  refine ⟨fun _ _ _ _ => rfl, ?_, ?_⟩
  · intro card hcard heq
    have hf := d1 card hcard
    rw [heq, hseen] at hf
    cases hf
  · intro c1 hc1 c2 hc2 heq
    have t1 := a3 c1 hc1
    have t2 := b1 c2 hc2
    rw [heq, t1] at t2
    cases t2

/-- Witness for C3 at a concrete input. -/
theorem claim_c3_source_independent_dedup_witness :
    (∀ (tbl : List SeenEntry) (cn src src' : Str),
      is_card_seen (fun s => s) tbl cn src = is_card_seen (fun s => s) tbl cn src') ∧
    (∀ card ∈ (scrape_new_messages (fun s => s) ⟨[⟨['1'], ['A']⟩], []⟩
        none [] 1 none none).cards, card.card_number ≠ ['1']) ∧
    (∀ c1 ∈ (scrape_new_messages (fun s => s) ⟨[⟨['1'], ['A']⟩], []⟩
        none [] 1 none none).cards,
      ∀ c2 ∈ (scrape_new_messages (fun s => s)
          (scrape_new_messages (fun s => s) ⟨[⟨['1'], ['A']⟩], []⟩
            none [] 1 none none).db none [] 1 none none).cards,
        c2.card_number ≠ c1.card_number) :=
  claim_c3_source_independent_dedup (fun s => s) ⟨[⟨['1'], ['A']⟩], []⟩
    ['1'] none none [] [] 1 1 none none none none (by decide)

/-- C5: whenever a truthy prefix filter is supplied, every emitted card's
primary identifier starts with the first six characters of the filter. -/
theorem claim_c5_bin_filter (hash : Str → Str) (db : DB)
    (resolve : Option (Int × Str)) (stream : List FetchItem) (limit : Int)
    (bn : Option Str) (s : Str) (hs : s ≠ []) :
    ∀ card ∈ (scrape_new_messages hash db resolve stream limit (some s) bn).cards,
      (s.take 6).isPrefixOf card.card_number = true := by
  have htr : truthyStr (some s) = true := by
    unfold truthyStr
    simpa using hs
  cases resolve with
  | none =>
    intro card hcard
    simp [scrape_new_messages] at hcard
  | some p =>
    obtain ⟨channel_id, title⟩ := p
    have hpres : ∀ st m, (∀ c ∈ LoopSt.found st, (s.take 6).isPrefixOf c.card_number = true) →
        (∀ c ∈ LoopSt.found (stepMsg hash title
            (get_last_msg_id db.last_scraped channel_id) (some s) bn st m),
          (s.take 6).isPrefixOf c.card_number = true) := by
      refine stepMsg_preserve hash title _ (some s) bn _ ?_ ?_
      · intro st v hq
        exact hq
      · intro st c hq
        rcases processCard_cases hash title (some s) st c with heq | ⟨_, hpre, heq⟩
        · rw [heq]; exact hq
        · rw [heq]
          intro c' hc'
          rw [List.mem_append] at hc'
          rcases hc' with hc' | hc'
          · exact hq c' hc'
          · rw [List.mem_singleton] at hc'
            subst hc'
            simpa using hpre htr
    have hloop := scrapeLoop_preserve hash title limit
      (get_last_msg_id db.last_scraped channel_id) (some s) bn
      (fun st => ∀ c ∈ LoopSt.found st, (s.take 6).isPrefixOf c.card_number = true)
      hpres (fetchCap limit stream)
      ⟨[], 0, get_last_msg_id db.last_scraped channel_id, db.seen_cards⟩
      (fun c hc => absurd hc (List.not_mem_nil c))
    unfold scrape_new_messages
    dsimp only
    exact hloop

/-- Witness for C5 at a concrete input. -/
theorem claim_c5_bin_filter_witness :
    ((scrape_new_messages (fun s => s) ⟨[], []⟩ (some (7, ['C']))
        [.msg ⟨1, "4111111111111111 12 25 123".toList⟩] 5 (some "411111".toList)
        none).cards.all
      (fun card => ("411111".toList.take 6).isPrefixOf card.card_number)) = true :=
  List.all_eq_true.mpr
    (claim_c5_bin_filter (fun s => s) ⟨[], []⟩ (some (7, ['C']))
      [.msg ⟨1, "4111111111111111 12 25 123".toList⟩] 5 none "411111".toList
      (by decide))

/-! ### Checkpoint behaviour -/

theorem processCard_newest (hash : Str → Str) (title : Str) (sn : Option Str)
    (st : LoopSt) (c : Card) :
    (processCard hash title sn st c).newest = st.newest := by
  rcases processCard_cases hash title sn st c with heq | ⟨_, _, heq⟩ <;> rw [heq]

theorem foldl_processMatched_newest (hash : Str → Str) (title : Str)
    (sn : Option Str) (ms : List Str) :
    ∀ st : LoopSt, (ms.foldl (processMatched hash title sn) st).newest = st.newest := by
  induction ms with
  | nil => intro st; rfl
  | cons m rest ih =>
    intro st
    rw [List.foldl_cons, ih]
    unfold processMatched
    cases extractFromMatch m with
    | none => rfl
    | some card => exact processCard_newest hash title sn st card

theorem stepMsg_newest (hash : Str → Str) (title : Str) (last : Option Nat)
    (sn bn : Option Str) (st : LoopSt) (m : Msg) :
    (stepMsg hash title last sn bn st m).newest =
      some (match st.newest with
        | none => m.id
        | some n => max n m.id) := by
  unfold stepMsg
  dsimp only
  split
  · rfl
  · split
    · rfl
    · split
      · rfl
      · rw [foldl_processMatched_newest]

theorem scrapeLoop_newest (hash : Str → Str) (title : Str) (limit : Int)
    (last : Option Nat) (sn bn : Option Str) :
    ∀ (items : List FetchItem) (st : LoopSt),
      (scrapeLoop hash title limit last sn bn items st).newest =
        newestUpd st.newest
          (obsIds limit (stepMsg hash title last sn bn) items st) := by
  intro items
  induction items with
  | nil => intro st; rfl
  | cons it rest ih =>
    intro st
    cases it with
    | fetchErr => rfl
    | msg m =>
      simp only [scrapeLoop, obsIds]
      split
      · rfl
      · rw [ih, stepMsg_newest]
        rfl

theorem newestUpd_some (ids : List Nat) :
    ∀ n : Nat, ∃ v, newestUpd (some n) ids = some v ∧ n ≤ v ∧
      (v = n ∨ v ∈ ids) := by
  induction ids with
  | nil => intro n; exact ⟨n, rfl, Nat.le_refl n, Or.inl rfl⟩
  | cons i rest ih =>
    intro n
    have : newestUpd (some n) (i :: rest) = newestUpd (some (max n i)) rest := rfl
    obtain ⟨v, hv, hle, hmem⟩ := ih (max n i)
    refine ⟨v, by rw [this, hv], le_trans (Nat.le_max_left n i) hle, ?_⟩
    rcases hmem with hmem | hmem
    · subst hmem
      rcases Nat.le_total i n with hni | hni
      · exact Or.inl (by omega)
      · right
        have : max n i = i := Nat.max_eq_right hni
        rw [this]
        simp
    · right
      simp [hmem]

theorem newestUpd_none (ids : List Nat) :
    newestUpd none ids = none ∨
      ∃ v, newestUpd none ids = some v ∧ v ∈ ids := by
  cases ids with
  | nil => exact Or.inl rfl
  | cons i rest =>
    right
    have : newestUpd none (i :: rest) = newestUpd (some i) rest := rfl
    obtain ⟨v, hv, _, hmem⟩ := newestUpd_some rest i
    refine ⟨v, by rw [this, hv], ?_⟩
    rcases hmem with hmem | hmem
    · subst hmem; simp
    · simp [hmem]

theorem obsIds_mem (limit : Int) (step : LoopSt → Msg → LoopSt) :
    ∀ (items : List FetchItem) (st : LoopSt) (i : Nat),
      i ∈ obsIds limit step items st →
      ∃ m : Msg, FetchItem.msg m ∈ items ∧ i = m.id := by
  intro items
  induction items with
  | nil => intro st i hi; cases hi
  | cons it rest ih =>
    intro st i hi
    cases it with
    | fetchErr => cases hi
    | msg m =>
      simp only [obsIds] at hi
      split at hi
      · cases hi
      · rw [List.mem_cons] at hi
        rcases hi with hi | hi
        · exact ⟨m, by simp, hi⟩
        · obtain ⟨m', hm', he⟩ := ih _ i hi
          exact ⟨m', by simp [hm'], he⟩

theorem find?_filter_keep {α : Type} (p q : α → Bool)
    (hpq : ∀ a, p a = true → q a = true) :
    ∀ l : List α, (l.filter q).find? p = l.find? p := by
  intro l
  induction l with
  | nil => rfl
  | cons a t ih =>
    by_cases hq : q a = true
    · rw [List.filter_cons_of_pos hq]
      by_cases hp : p a = true
      · rw [List.find?_cons_of_pos _ hp, List.find?_cons_of_pos _ hp]
      · rw [Bool.not_eq_true] at hp
        rw [List.find?_cons_of_neg _ (by simp [hp]),
          List.find?_cons_of_neg _ (by simp [hp])]
        exact ih
    · rw [Bool.not_eq_true] at hq
      rw [List.filter_cons_of_neg (by simp [hq])]
      have hp : p a = false := by
        by_contra hc
        rw [Bool.not_eq_false] at hc
        rw [hpq a hc] at hq
        cases hq
      rw [List.find?_cons_of_neg _ (by simp [hp])]
      exact ih

theorem get_update_self (tbl : List (Int × Nat)) (ch : Int) (v : Nat) :
    get_last_msg_id (update_last_msg_id tbl ch v) ch = some v := by
  unfold get_last_msg_id update_last_msg_id
  rw [List.find?_cons_of_pos _ (by simp)]
  rfl

theorem get_update_other (tbl : List (Int × Nat)) (ch ch' : Int) (v : Nat)
    (hne : ch' ≠ ch) :
    get_last_msg_id (update_last_msg_id tbl ch v) ch' =
      get_last_msg_id tbl ch' := by
  unfold get_last_msg_id update_last_msg_id
  rw [List.find?_cons_of_neg _ (by simp [Ne.symm hne])]
  have hpq : ∀ a : Int × Nat, (a.1 == ch') = true → (!(a.1 == ch)) = true := by
    intro a ha
    rw [beq_iff_eq] at ha
    simp [ha, hne]
  rw [find?_filter_keep _ _ hpq tbl]

/-- The checkpoint write of lines 166-169, in isolation: if the scan-end
`newest` value dominates the prior checkpoint and is positive whenever it is
present, then after the conditional write the stored value equals `newest`,
nothing is written when `newest` equals the prior value, and no stored
checkpoint decreases. -/
theorem checkpoint_finalize (tbl : List (Int × Nat)) (ch : Int)
    (nw : Option Nat)
    (h1 : ∀ l, get_last_msg_id tbl ch = some l → ∃ v, nw = some v ∧ l ≤ v)
    (h2 : ∀ v, nw = some v → 0 < v)
    (h3 : nw = none → get_last_msg_id tbl ch = none) :
    (get_last_msg_id
      (if truthyNat nw && decide (nw ≠ get_last_msg_id tbl ch) then
        update_last_msg_id tbl ch (nw.getD 0) else tbl) ch = nw) ∧
    (nw = get_last_msg_id tbl ch →
      (if truthyNat nw && decide (nw ≠ get_last_msg_id tbl ch) then
        update_last_msg_id tbl ch (nw.getD 0) else tbl) = tbl) ∧
    (∀ (ch' : Int) (v : Nat), get_last_msg_id tbl ch' = some v →
      ∃ w, get_last_msg_id
          (if truthyNat nw && decide (nw ≠ get_last_msg_id tbl ch) then
            update_last_msg_id tbl ch (nw.getD 0) else tbl) ch' = some w ∧
        v ≤ w) := by
  by_cases hsame : nw = get_last_msg_id tbl ch
  · have hcond : (truthyNat nw && decide (nw ≠ get_last_msg_id tbl ch)) = false := by
      simp [hsame]
    rw [hcond]
    simp only [Bool.false_eq_true, if_false]
    exact ⟨hsame.symm, fun _ => trivial, fun ch' v hv => ⟨v, hv, Nat.le_refl v⟩⟩
  · cases hnw : nw with
    | none =>
      exact absurd (hnw.trans (h3 hnw).symm) hsame
    | some v =>
      have hvpos : 0 < v := h2 v hnw
      rw [hnw] at hsame
      have hcond : (truthyNat (some v) &&
          decide (some v ≠ get_last_msg_id tbl ch)) = true := by
        simp [truthyNat, hsame]
        omega
      rw [hcond]
      simp only [if_true]
      refine ⟨?_, ?_, ?_⟩
      · rw [get_update_self]
        rfl
      · intro hc
        exact absurd hc hsame
      · intro ch' w hw
        by_cases hch : ch' = ch
        · subst hch
          obtain ⟨v', hv', hle⟩ := h1 w hw
          rw [hnw] at hv'
          injection hv' with hv'
          subst hv'
          rw [get_update_self]
          exact ⟨v, rfl, hle⟩
        · rw [get_update_other _ _ _ _ hch]
          exact ⟨w, hw, Nat.le_refl w⟩

/-- C2 as one reusable lemma: for a resolvable source, with positive message
positions and a positive (or absent) prior checkpoint, the stored checkpoint
after the scan is the running maximum of the prior checkpoint and all observed
positions; nothing is written when that maximum equals the prior value; and no
stored checkpoint ever decreases. -/
theorem scrape_checkpoint_spec (hash : Str → Str) (db : DB) (channel_id : Int)
    (title : Str) (stream : List FetchItem) (limit : Int) (sn bn : Option Str)
    (hpos : ∀ m : Msg, FetchItem.msg m ∈ stream → 0 < m.id)
    (hprior : ∀ l, get_last_msg_id db.last_scraped channel_id = some l → 0 < l) :
    (get_last_msg_id
      (scrape_new_messages hash db (some (channel_id, title)) stream limit sn bn).db.last_scraped
      channel_id =
      newestUpd (get_last_msg_id db.last_scraped channel_id)
        (obsIds limit
          (stepMsg hash title (get_last_msg_id db.last_scraped channel_id) sn bn)
          (fetchCap limit stream)
          ⟨[], 0, get_last_msg_id db.last_scraped channel_id, db.seen_cards⟩)) ∧
    (newestUpd (get_last_msg_id db.last_scraped channel_id)
        (obsIds limit
          (stepMsg hash title (get_last_msg_id db.last_scraped channel_id) sn bn)
          (fetchCap limit stream)
          ⟨[], 0, get_last_msg_id db.last_scraped channel_id, db.seen_cards⟩) =
        get_last_msg_id db.last_scraped channel_id →
      (scrape_new_messages hash db (some (channel_id, title)) stream limit sn bn).db.last_scraped =
        db.last_scraped) ∧
    (∀ (ch' : Int) (v : Nat), get_last_msg_id db.last_scraped ch' = some v →
      ∃ w, get_last_msg_id
          (scrape_new_messages hash db (some (channel_id, title)) stream limit sn bn).db.last_scraped
          ch' = some w ∧ v ≤ w) := by
  have hobspos : ∀ i ∈ obsIds limit
      (stepMsg hash title (get_last_msg_id db.last_scraped channel_id) sn bn)
      (fetchCap limit stream)
      ⟨[], 0, get_last_msg_id db.last_scraped channel_id, db.seen_cards⟩, 0 < i := by
    intro i hi
    obtain ⟨m, hm, he⟩ := obsIds_mem _ _ _ _ i hi
    subst he
    exact hpos m (fetchCap_subset limit stream _ hm)
  unfold scrape_new_messages
  dsimp only
  rw [scrapeLoop_newest]
  generalize hobseq : obsIds limit
      (stepMsg hash title (get_last_msg_id db.last_scraped channel_id) sn bn)
      (fetchCap limit stream)
      ⟨[], 0, get_last_msg_id db.last_scraped channel_id, db.seen_cards⟩ = obs
    at hobspos ⊢
  refine checkpoint_finalize db.last_scraped channel_id
    (newestUpd (get_last_msg_id db.last_scraped channel_id) obs) ?_ ?_ ?_
  · intro l hl
    obtain ⟨v, hv, hle, _⟩ := newestUpd_some obs l
    rw [hl]
    exact ⟨v, hv, hle⟩
  · intro v hv
    cases hg : get_last_msg_id db.last_scraped channel_id with
    | some l =>
      rw [hg] at hv
      obtain ⟨v', hv', hle, _⟩ := newestUpd_some obs l
      rw [hv] at hv'
      injection hv' with hv'
      have := hprior l hg
      omega
    | none =>
      rw [hg] at hv
      rcases newestUpd_none obs with hn | ⟨v', hv', hmem⟩
      · rw [hn] at hv
        cases hv
      · rw [hv] at hv'
        injection hv' with hv'
        subst hv'
        exact hobspos v hmem
  · intro hn
    cases hg : get_last_msg_id db.last_scraped channel_id with
    | none => rfl
    | some l =>
      rw [hg] at hn
      obtain ⟨v, hv, _, _⟩ := newestUpd_some obs l
      rw [hn] at hv
      cases hv

/-- C2: checkpoint finalization.  For a scan of a resolvable source (message
positions positive, prior checkpoint positive when present): the stored
checkpoint afterwards is the running maximum of the prior checkpoint and every
position observed during the scan; the table is not touched when that maximum
equals the prior value; and no stored position ever decreases. -/
theorem claim_c2_checkpoint_finalization (hash : Str → Str) (db : DB)
    (channel_id : Int) (title : Str) (stream : List FetchItem) (limit : Int)
    (sn bn : Option Str)
    (hpos : ∀ m : Msg, FetchItem.msg m ∈ stream → 0 < m.id)
    (hprior : ∀ l, get_last_msg_id db.last_scraped channel_id = some l → 0 < l) :
    (get_last_msg_id
      (scrape_new_messages hash db (some (channel_id, title)) stream limit sn bn).db.last_scraped
      channel_id =
      newestUpd (get_last_msg_id db.last_scraped channel_id)
        (obsIds limit
          (stepMsg hash title (get_last_msg_id db.last_scraped channel_id) sn bn)
          (fetchCap limit stream)
          ⟨[], 0, get_last_msg_id db.last_scraped channel_id, db.seen_cards⟩)) ∧
    (newestUpd (get_last_msg_id db.last_scraped channel_id)
        (obsIds limit
          (stepMsg hash title (get_last_msg_id db.last_scraped channel_id) sn bn)
          (fetchCap limit stream)
          ⟨[], 0, get_last_msg_id db.last_scraped channel_id, db.seen_cards⟩) =
        get_last_msg_id db.last_scraped channel_id →
      (scrape_new_messages hash db (some (channel_id, title)) stream limit sn bn).db.last_scraped =
        db.last_scraped) ∧
    (∀ (ch' : Int) (v : Nat), get_last_msg_id db.last_scraped ch' = some v →
      ∃ w, get_last_msg_id
          (scrape_new_messages hash db (some (channel_id, title)) stream limit sn bn).db.last_scraped
          ch' = some w ∧ v ≤ w) :=
  scrape_checkpoint_spec hash db channel_id title stream limit sn bn hpos hprior

/-- Witness for C2 at a concrete input. -/
theorem claim_c2_checkpoint_finalization_witness :
    (get_last_msg_id
      (scrape_new_messages (fun s => s) ⟨[], []⟩ (some (7, ['C']))
        [.msg ⟨5, ['x']⟩] 3 none none).db.last_scraped 7 =
      newestUpd (get_last_msg_id ([] : List (Int × Nat)) 7)
        (obsIds 3 (stepMsg (fun s => s) ['C']
            (get_last_msg_id ([] : List (Int × Nat)) 7) none none)
          (fetchCap 3 [.msg ⟨5, ['x']⟩])
          ⟨[], 0, get_last_msg_id ([] : List (Int × Nat)) 7, []⟩)) ∧
    (newestUpd (get_last_msg_id ([] : List (Int × Nat)) 7)
        (obsIds 3 (stepMsg (fun s => s) ['C']
            (get_last_msg_id ([] : List (Int × Nat)) 7) none none)
          (fetchCap 3 [.msg ⟨5, ['x']⟩])
          ⟨[], 0, get_last_msg_id ([] : List (Int × Nat)) 7, []⟩) =
        get_last_msg_id ([] : List (Int × Nat)) 7 →
      (scrape_new_messages (fun s => s) ⟨[], []⟩ (some (7, ['C']))
        [.msg ⟨5, ['x']⟩] 3 none none).db.last_scraped = []) ∧
    (∀ (ch' : Int) (v : Nat), get_last_msg_id ([] : List (Int × Nat)) ch' = some v →
      ∃ w, get_last_msg_id
          (scrape_new_messages (fun s => s) ⟨[], []⟩ (some (7, ['C']))
            [.msg ⟨5, ['x']⟩] 3 none none).db.last_scraped ch' = some w ∧
        v ≤ w) :=
  claim_c2_checkpoint_finalization (fun s => s) ⟨[], []⟩ 7 ['C']
    [.msg ⟨5, ['x']⟩] 3 none none
    (by
      intro m hm
      simp only [List.mem_singleton] at hm
      injection hm with h
      subst h
      decide)
    (by intro l hl; cases hl)

/-! ### Early stop on a fetch error -/

theorem scrapeLoop_append_err (hash : Str → Str) (title : Str) (limit : Int)
    (last : Option Nat) (sn bn : Option Str) :
    ∀ (xs ys : List FetchItem) (st : LoopSt),
      scrapeLoop hash title limit last sn bn (xs ++ FetchItem.fetchErr :: ys) st =
        scrapeLoop hash title limit last sn bn xs st := by
  intro xs
  induction xs with
  | nil => intro ys st; rfl
  | cons it rest ih =>
    intro ys st
    cases it with
    | fetchErr => rfl
    | msg m =>
      simp only [List.cons_append, scrapeLoop]
      split
      · rfl
      · exact ih ys _

theorem scrapeLoop_fetchCap_err (hash : Str → Str) (title : Str) (limit : Int)
    (last : Option Nat) (sn bn : Option Str) (xs ys : List FetchItem)
    (st : LoopSt) :
    scrapeLoop hash title limit last sn bn
        (fetchCap limit (xs ++ FetchItem.fetchErr :: ys)) st =
      scrapeLoop hash title limit last sn bn (fetchCap limit xs) st := by
  unfold fetchCap
  split
  · by_cases hn : (limit * 5).toNat ≤ xs.length
    · rw [List.take_append_of_le_length hn]
    · push_neg at hn
      rw [List.take_append_eq_append_take,
        List.take_of_length_le (le_of_lt hn)]
      have hk : (limit * 5).toNat - xs.length =
          ((limit * 5).toNat - xs.length - 1) + 1 := by omega
      rw [hk, List.take_succ_cons, scrapeLoop_append_err]
  · exact scrapeLoop_append_err hash title limit last sn bn xs ys st

/-- A transport error raised after `pre` has been yielded makes the whole
scan behave exactly like a scan of the stream truncated at the error. -/
theorem scrape_err_stop (hash : Str → Str) (db : DB)
    (resolve : Option (Int × Str)) (pre rest : List FetchItem) (limit : Int)
    (sn bn : Option Str) :
    scrape_new_messages hash db resolve (pre ++ FetchItem.fetchErr :: rest)
        limit sn bn =
      scrape_new_messages hash db resolve pre limit sn bn := by
  cases resolve with
  | none => rfl
  | some p =>
    obtain ⟨channel_id, title⟩ := p
    unfold scrape_new_messages
    dsimp only
    rw [scrapeLoop_fetchCap_err]

/-- C6: a fetch error mid-scan stops the scan early: the result (records,
label, returned position, database) is exactly that of the scan truncated at
the error point, and the checkpoint is still advanced to the maximum observed
position (never decreasing) despite the failure. -/
theorem claim_c6_partial_progress (hash : Str → Str) (db : DB)
    (channel_id : Int) (title : Str) (pre : List Msg) (rest : List FetchItem)
    (limit : Int) (sn bn : Option Str)
    (hpos : ∀ m : Msg, m ∈ pre → 0 < m.id)
    (hprior : ∀ l, get_last_msg_id db.last_scraped channel_id = some l → 0 < l) :
    (scrape_new_messages hash db (some (channel_id, title))
        (pre.map FetchItem.msg ++ FetchItem.fetchErr :: rest) limit sn bn =
      scrape_new_messages hash db (some (channel_id, title))
        (pre.map FetchItem.msg) limit sn bn) ∧
    (get_last_msg_id
      (scrape_new_messages hash db (some (channel_id, title))
        (pre.map FetchItem.msg ++ FetchItem.fetchErr :: rest) limit sn bn).db.last_scraped
      channel_id =
      newestUpd (get_last_msg_id db.last_scraped channel_id)
        (obsIds limit
          (stepMsg hash title (get_last_msg_id db.last_scraped channel_id) sn bn)
          (fetchCap limit (pre.map FetchItem.msg))
          ⟨[], 0, get_last_msg_id db.last_scraped channel_id, db.seen_cards⟩)) ∧
    (∀ (ch' : Int) (v : Nat), get_last_msg_id db.last_scraped ch' = some v →
      ∃ w, get_last_msg_id
          (scrape_new_messages hash db (some (channel_id, title))
            (pre.map FetchItem.msg ++ FetchItem.fetchErr :: rest)
            limit sn bn).db.last_scraped ch' = some w ∧ v ≤ w) := by
  have heq := scrape_err_stop hash db (some (channel_id, title))
    (pre.map FetchItem.msg) rest limit sn bn
  have hpos' : ∀ m : Msg, FetchItem.msg m ∈ pre.map FetchItem.msg → 0 < m.id := by
    intro m hm
    rw [List.mem_map] at hm
    obtain ⟨m', hm', he⟩ := hm
    injection he with he
    subst he
    exact hpos m' hm'
  obtain ⟨h1, _, h3⟩ := scrape_checkpoint_spec hash db channel_id title
    (pre.map FetchItem.msg) limit sn bn hpos' hprior
  refine ⟨heq, ?_, ?_⟩
  · rw [heq]
    exact h1
  · intro ch' v hv
    rw [heq]
    exact h3 ch' v hv

/-- Witness for C6 at a concrete input. -/
theorem claim_c6_partial_progress_witness :
    (scrape_new_messages (fun s => s) ⟨[], []⟩ (some (7, ['C']))
        (([⟨5, ['x']⟩] : List Msg).map FetchItem.msg ++
          FetchItem.fetchErr :: [.msg ⟨9, ['y']⟩]) 3 none none =
      scrape_new_messages (fun s => s) ⟨[], []⟩ (some (7, ['C']))
        (([⟨5, ['x']⟩] : List Msg).map FetchItem.msg) 3 none none) ∧
    (get_last_msg_id
      (scrape_new_messages (fun s => s) ⟨[], []⟩ (some (7, ['C']))
        (([⟨5, ['x']⟩] : List Msg).map FetchItem.msg ++
          FetchItem.fetchErr :: [.msg ⟨9, ['y']⟩]) 3 none none).db.last_scraped 7 =
      newestUpd (get_last_msg_id ([] : List (Int × Nat)) 7)
        (obsIds 3 (stepMsg (fun s => s) ['C']
            (get_last_msg_id ([] : List (Int × Nat)) 7) none none)
          (fetchCap 3 (([⟨5, ['x']⟩] : List Msg).map FetchItem.msg))
          ⟨[], 0, get_last_msg_id ([] : List (Int × Nat)) 7, []⟩)) ∧
    (∀ (ch' : Int) (v : Nat), get_last_msg_id ([] : List (Int × Nat)) ch' = some v →
      ∃ w, get_last_msg_id
          (scrape_new_messages (fun s => s) ⟨[], []⟩ (some (7, ['C']))
            (([⟨5, ['x']⟩] : List Msg).map FetchItem.msg ++
              FetchItem.fetchErr :: [.msg ⟨9, ['y']⟩]) 3 none none).db.last_scraped
          ch' = some w ∧ v ≤ w) :=
  claim_c6_partial_progress (fun s => s) ⟨[], []⟩ 7 ['C'] [⟨5, ['x']⟩]
    [.msg ⟨9, ['y']⟩] 3 none none
    (by
      intro m hm
      simp only [List.mem_singleton] at hm
      subst hm
      decide)
    (by intro l hl; cases hl)

/-! ### Soundness of the regex matcher against the grammar -/

theorem tryCounts_sound (p : Char → Bool) (lo : Nat) (rest : Str → Option Nat) :
    ∀ (k : Nat) (s : Str) (n : Nat), tryCounts p lo rest k s = some n →
      ∃ j m, j ≤ k ∧ lo ≤ j ∧ j ≤ s.length ∧ (∀ c ∈ s.take j, p c = true) ∧
        rest (s.drop j) = some m ∧ n = j + m := by
  intro k
  induction k with
  | zero =>
    intro s n h
    simp only [tryCounts] at h
    split at h
    · cases h
    · split at h
      · next hcond =>
        rw [Bool.and_eq_true] at hcond
        obtain ⟨hall, hlen⟩ := hcond
        cases hr : rest (s.drop 0) with
        | none => rw [hr] at h; cases h
        | some m =>
          rw [hr] at h
          injection h with h
          refine ⟨0, m, Nat.le_refl 0, by omega, by omega, ?_, hr, h.symm⟩
          intro c hc
          exact List.all_eq_true.mp hall c hc
      · cases h
  | succ k' ih =>
    intro s n h
    simp only [tryCounts] at h
    split at h
    · cases h
    · split at h
      · next hcond =>
        rw [Bool.and_eq_true] at hcond
        obtain ⟨hall, hlen⟩ := hcond
        rw [decide_eq_true_iff] at hlen
        cases hr : rest (s.drop (k' + 1)) with
        | none =>
          rw [hr] at h
          obtain ⟨j, m, hjk, hlo', hjlen, hp, hre, hn⟩ := ih s n h
          exact ⟨j, m, by omega, hlo', hjlen, hp, hre, hn⟩
        | some m =>
          rw [hr] at h
          injection h with h
          refine ⟨k' + 1, m, Nat.le_refl _, by omega, hlen, ?_, hr, h.symm⟩
          intro c hc
          exact List.all_eq_true.mp hall c hc
      · obtain ⟨j, m, hjk, hlo', hjlen, hp, hre, hn⟩ := ih s n h
        exact ⟨j, m, by omega, hlo', hjlen, hp, hre, hn⟩

theorem matchElems_sound :
    ∀ (es : List REElem) (s : Str) (n : Nat), matchElems es s = some n →
      n ≤ s.length ∧ segsMatch es (s.take n) := by
  intro es
  induction es with
  | nil =>
    intro s n h
    injection h with h
    subst h
    exact ⟨Nat.zero_le _, rfl⟩
  | cons e es ih =>
    intro s n h
    unfold matchElems at h
    obtain ⟨j, m, hjk, hlo, hjlen, hp, hre, hn⟩ :=
      tryCounts_sound e.pred e.lo _ _ s n h
    obtain ⟨hmlen, hseg⟩ := ih (s.drop j) m hre
    rw [List.length_drop] at hmlen
    subst hn
    constructor
    · omega
    · refine ⟨s.take j, (s.drop j).take m, ?_, ?_, ?_, hp, hseg⟩
      · exact List.take_add s j m
      · rw [List.length_take]
        omega
      · intro b hb
        rw [List.length_take]
        rw [hb] at hjk
        simp only [Option.getD_some] at hjk
        omega

theorem findAllRE_nil (p : List REElem) : findAllRE p [] = [] := by
  unfold findAllRE
  rfl

theorem findAllRE_sound (p : List REElem) :
    ∀ (N : Nat) (s : Str), s.length ≤ N → ∀ m ∈ findAllRE p s,
      ∃ (t : Str) (n : Nat), matchElems p t = some n ∧ 0 < n ∧ n ≤ t.length ∧
        m = t.take n := by
  intro N
  induction N with
  | zero =>
    intro s hs m hm
    have : s = [] := List.length_eq_zero.mp (by omega)
    subst this
    rw [findAllRE_nil] at hm
    cases hm
  | succ N ih =>
    intro s hs m hm
    cases s with
    | nil =>
      rw [findAllRE_nil] at hm
      cases hm
    | cons c t =>
      unfold findAllRE at hm
      cases hme : matchElems p (c :: t) with
      | none =>
        rw [hme] at hm
        dsimp only at hm
        exact ih t (by simp at hs; omega) m hm
      | some n =>
        rw [hme] at hm
        dsimp only at hm
        split at hm
        · next hcond =>
          rw [List.mem_cons] at hm
          rcases hm with hm | hm
          · exact ⟨c :: t, n, hme, hcond.1, hcond.2, hm⟩
          · refine ih ((c :: t).drop n) ?_ m hm
            rw [List.length_drop]
            simp only [List.length_cons]
            simp only [List.length_cons] at hs
            omega
        · exact ih t (by simp at hs; omega) m hm

/-- A full match of the coarse pattern decomposes into the grammar's seven
blocks with the right lengths and character classes. -/
theorem segs_coarseShape (m : Str) (h : segsMatch coarsePattern m) :
    coarseShape m := by
  simp only [coarsePattern, segsMatch] at h
  obtain ⟨a, r1, he1, hlo1, hhi1, hp1,
    s1, r2, he2, hlo2, hhi2, hp2,
    b, r3, he3, hlo3, hhi3, hp3,
    s2, r4, he4, hlo4, hhi4, hp4,
    c, r5, he5, hlo5, hhi5, hp5,
    s3, r6, he6, hlo6, hhi6, hp6,
    d, r7, he7, hlo7, hhi7, hp7, h7⟩ := h
  subst he1 he2 he3 he4 he5 he6 he7 h7
  refine ⟨a, s1, b, s2, c, s3, d, by simp, ?_, hp1, ?_, ?_, hp3, ?_, hlo5,
    hhi5 4 rfl, hp5, ?_, hlo7, hhi7 4 rfl, hp7⟩
  · have := hhi1 16 rfl
    omega
  · intro ch hch
    have := hp2 ch hch
    rwa [Bool.not_eq_true'] at this
  · have := hhi3 2 rfl
    omega
  · intro ch hch
    have := hp4 ch hch
    rwa [Bool.not_eq_true'] at this
  · intro ch hch
    have := hp6 ch hch
    rwa [Bool.not_eq_true'] at this

/-- Every string returned by `findAllRE coarsePattern` has the shape of the
spec's coarse grammar. -/
theorem findAllRE_coarseShape (s : Str) :
    ∀ m ∈ findAllRE coarsePattern s, coarseShape m := by
  intro m hm
  obtain ⟨t, n, hme, _, _, hmt⟩ :=
    findAllRE_sound coarsePattern s.length s (Nat.le_refl _) m hm
  obtain ⟨_, hseg⟩ := matchElems_sound coarsePattern t n hme
  subst hmt
  exact segs_coarseShape _ hseg

/-- Processing the coarse matches of a text is processing, in order, the one
candidate card of each match that has exactly four digit runs. -/
theorem foldl_processMatched_eq (hash : Str → Str) (title : Str)
    (sn : Option Str) :
    ∀ (ms : List Str) (st : LoopSt),
      ms.foldl (processMatched hash title sn) st =
        (ms.filterMap extractFromMatch).foldl (processCard hash title sn) st := by
  intro ms
  induction ms with
  | nil => intro st; rfl
  | cons m rest ih =>
    intro st
    rw [List.foldl_cons]
    cases he : extractFromMatch m with
    | none =>
      rw [List.filterMap_cons_none he]
      unfold processMatched
      rw [he]
      exact ih st
    | some card =>
      rw [List.filterMap_cons_some he, List.foldl_cons]
      unfold processMatched
      rw [he]
      exact ih _

/-- C4: every coarse match of the scan's pattern has the positional-grammar
shape (16 digits, separators, 2 digits, separators, 2-4 digits, separators,
3-4 digits); a match with exactly four maximal digit runs yields the one
candidate card with the fields in order and the year cut to its last two
characters; any other digit-run count yields no candidate; and the scan
consumes exactly these candidates, one per four-run match, in order. -/
theorem claim_c4_extraction_grammar (text : Str) :
    (∀ m ∈ findAllRE coarsePattern text, coarseShape m) ∧
    (∀ m ∈ findAllRE coarsePattern text, ∀ a b c d : Str,
      digitRuns m = [a, b, c, d] →
      extractFromMatch m = some ⟨a, b, lastTwo c, d⟩) ∧
    (∀ m : Str, (digitRuns m).length ≠ 4 → extractFromMatch m = none) ∧
    (∀ (hash : Str → Str) (title : Str) (sn : Option Str) (st : LoopSt),
      (findAllRE coarsePattern text).foldl (processMatched hash title sn) st =
        ((findAllRE coarsePattern text).filterMap extractFromMatch).foldl
          (processCard hash title sn) st) := by
  refine ⟨findAllRE_coarseShape text, ?_, ?_, ?_⟩
  · intro m _ a b c d hdr
    unfold extractFromMatch
    rw [hdr]
  · intro m hlen
    unfold extractFromMatch
    rcases hdr : digitRuns m with _ | ⟨a, _ | ⟨b, _ | ⟨c, _ | ⟨d, _ | ⟨e, t⟩⟩⟩⟩⟩
    · rfl
    · rfl
    · rfl
    · rfl
    · rw [hdr] at hlen
      simp at hlen
    · rfl
  · intro hash title sn st
    exact foldl_processMatched_eq hash title sn (findAllRE coarsePattern text) st

/-- Witness for C4 at a concrete text (the spec's §8 scenario input). -/
theorem claim_c4_extraction_grammar_witness :
    (∀ m ∈ findAllRE coarsePattern "4111111111111111 12/25 123".toList,
      coarseShape m) ∧
    (∀ m ∈ findAllRE coarsePattern "4111111111111111 12/25 123".toList,
      ∀ a b c d : Str, digitRuns m = [a, b, c, d] →
      extractFromMatch m = some ⟨a, b, lastTwo c, d⟩) ∧
    (∀ m : Str, (digitRuns m).length ≠ 4 → extractFromMatch m = none) ∧
    (∀ (hash : Str → Str) (title : Str) (sn : Option Str) (st : LoopSt),
      (findAllRE coarsePattern "4111111111111111 12/25 123".toList).foldl
          (processMatched hash title sn) st =
        ((findAllRE coarsePattern "4111111111111111 12/25 123".toList).filterMap
          extractFromMatch).foldl (processCard hash title sn) st) :=
  claim_c4_extraction_grammar "4111111111111111 12/25 123".toList

end Scr
